import Mathlib

/-!
Verification of the RSA demo application (`app_rsa.py`).

The arithmetic core of the program is embedded below.  Python's
arbitrary-precision integers are modelled by `Nat` (all values flowing
through the core are non-negative; the Bezout coefficients inside
`mod_inverse`, which do go negative, are modelled by `Int`).  Randomness
(`random.randint`, `random.getrandbits`) is modelled by explicit draw
functions / draw lists; theorems carry the range contracts of the draws
as hypotheses.  Python's `chr`, which raises `ValueError` on arguments
outside `[0, 0x110000)`, is modelled as an `Option`; consequently
`decrypt`, whose loop calls `chr`, returns an `Option`.
-/

namespace AppRsa

/-- Python's three-argument `pow(b, e, m)`: modular exponentiation. -/
def powMod (b e m : Nat) : Nat := b ^ e % m

/-- Python's `chr`: valid for code points `0 ≤ x < 0x110000` (= 1114112),
raises `ValueError` (here: `none`) otherwise. -/
def chr (x : Nat) : Option Nat := if x < 1114112 then some x else none

/-- The inner witness loop of `is_prime` (lines 29-34): starting from `x`,
square modulo `n` up to `t` times; report `true` as soon as a square equals
`n - 1`, and `false` if the retries run out (Python's `for ... else`). -/
def mrInner (n : Nat) : Nat → Nat → Bool
  | 0, _ => false
  | t + 1, x =>
    if powMod x 2 n = n - 1 then true else mrInner n t (powMod x 2 n)

/-- One round of the Miller-Rabin loop of `is_prime` (lines 24-34) for the
witness `a`, where `n - 1 = 2 ^ s * d` with `d` odd. -/
def millerRabinRound (n s d a : Nat) : Bool :=
  if powMod a d n = 1 ∨ powMod a d n = n - 1 then true
  else mrInner n (s - 1) (powMod a d n)

/-- The factoring loop of `is_prime` (lines 17-21): write the argument as
`2 ^ s * d` with `d` odd, returning `(s, d)`.  The Python loop runs while
`d % 2 == 0`; the extra `0 < d` guard (true at every call site, since the
argument is `n - 1 ≥ 4`) only serves termination. -/
def split2 (d : Nat) : Nat × Nat :=
  if h : d % 2 = 0 ∧ 0 < d then
    let p := split2 (d / 2)
    (p.1 + 1, p.2)
  else (0, d)
termination_by d
decreasing_by exact Nat.div_lt_self h.2 (by omega)

/-- The `for _ in range(k)` loop of `is_prime` (lines 24-34): all `k`
rounds must pass; the `i`-th round uses the witness `draw i`
(modelling `random.randint(2, n - 2)`). -/
def mrRounds (n s d k : Nat) (draw : Nat → Nat) : Bool :=
  (List.range k).all fun i => millerRabinRound n s d (draw i)

/-- `is_prime(n, k)` (lines 4-35): Miller-Rabin primality test.
`draw` supplies the `k` random witnesses. -/
def is_prime (n k : Nat) (draw : Nat → Nat) : Bool :=
  if n ≤ 1 ∨ n = 4 then false
  else if n ≤ 3 then true
  else if n % 2 = 0 then false
  else mrRounds n (split2 (n - 1)).1 (split2 (n - 1)).2 k draw

/-- The candidate transform of `generate_prime` (lines 42-44):
`p = r | ((1 << (bits - 1)) | 1)` where `r` models `random.getrandbits(bits)`. -/
def primeCandidate (bits r : Nat) : Nat := r ||| (1 <<< (bits - 1) ||| 1)

/-- `generate_prime(bits)` (lines 37-46): repeatedly draw a candidate,
force its top and bottom bits, and return the first candidate passing
`is_prime`.  Each attempt is a pair of the `getrandbits` draw and the
witness draws of its `is_prime` call; the unbounded `while True` loop is
modelled by running through the (arbitrarily long) list of attempts. -/
def generate_prime (bits : Nat) : List (Nat × (Nat → Nat)) → Option Nat
  | [] => none
  | (r, wdraw) :: rest =>
    if is_prime (primeCandidate bits r) 5 wdraw then some (primeCandidate bits r)
    else generate_prime bits rest

/-- `gcd(a, b)` (lines 48-54): Euclidean algorithm,
`while b: a, b = b, a % b`. -/
def gcd (a b : Nat) : Nat :=
  if b = 0 then a else gcd b (a % b)
termination_by b
decreasing_by exact Nat.mod_lt a (Nat.pos_of_ne_zero (by assumption))

/-- The `while a > 1` loop of `mod_inverse` (lines 66-73), in state
`(a, m, x, y)`: one iteration computes `q = a // m` and steps to
`(m, a % m, y, x - q * y)`.  `a` and `m` stay non-negative (`Nat`); the
Bezout coefficients `x`, `y` are Python ints (`Int`).  When `a > 1` and
`m = 0` the Python code raises `ZeroDivisionError` on `a // m`; that is
the `none` result. -/
def egcdLoop (a m : Nat) (x y : Int) : Option Int :=
  if a ≤ 1 then some x
  else if m = 0 then none
  else egcdLoop m (a % m) y (x - (a / m : Nat) * y)
termination_by m
decreasing_by exact Nat.mod_lt a (Nat.pos_of_ne_zero (by assumption))

/-- `mod_inverse(a, m)` (lines 56-76): extended Euclidean algorithm
starting from `x = 1`, `y = 0`, followed by the normalisation
`if x < 0: x = x + m0`. -/
def mod_inverse (a m : Nat) : Option Int :=
  if m = 1 then some 0
  else (egcdLoop a m 1 0).map fun x => if x < 0 then x + m else x

/-- The public-exponent selection loop of `generate_keypair` (lines 99-101):
draw until `gcd(e, phi) = 1`; the draws model `random.randint(2, phi - 1)`. -/
def choose_e (phi : Nat) : List Nat → Option Nat
  | [] => none
  | e :: es => if gcd e phi ≠ 1 then choose_e phi es else some e

/-- `generate_keypair` (lines 78-109), after its random choices: `p`, `q`
are the two `generate_prime` results (`p ≠ q` after the regeneration loop)
and `e` the selected public exponent.  Computes `n = p * q`,
`phi = (p - 1) * (q - 1)`, `d = mod_inverse(e, phi)` and returns
`((n, e), (n, d))`.  `mod_inverse` yields a non-negative Python int here
(proved below), so its value is carried over as a `Nat`. -/
def generate_keypair (p q e : Nat) : Option ((Nat × Nat) × (Nat × Nat)) :=
  (mod_inverse e ((p - 1) * (q - 1))).map fun d => ((p * q, e), (p * q, d.toNat))

/-- The `for char in plaintext` loop of `encrypt` (lines 122-134) with its
accumulator `encrypted_msg_chars`: on a symbol whose code is `≥ n` the
whole call returns `[]` (lines 127-131), discarding the accumulator. -/
def encryptLoop (n e : Nat) : List Nat → List Nat → List Nat
  | acc, [] => acc
  | acc, c :: cs =>
    if n ≤ c then [] else encryptLoop n e (acc ++ [powMod c e n]) cs

/-- `encrypt(public_key, plaintext)` (lines 111-136).  The plaintext is the
list of the code points (`ord`) of its characters. -/
def encrypt (public_key : Nat × Nat) (plaintext : List Nat) : List Nat :=
  encryptLoop public_key.1 public_key.2 [] plaintext

/-- The `for char_code in ciphertext` loop of `decrypt` (lines 146-148):
each value is decrypted with `pow(char_code, d, n)` and converted with
`chr`; a `chr` failure (code point `≥ 0x110000`) aborts the whole call. -/
def decryptLoop (n d : Nat) : List Nat → Option (List Nat)
  | [] => some []
  | c :: cs =>
    match chr (powMod c d n), decryptLoop n d cs with
    | some ch, some rest => some (ch :: rest)
    | _, _ => none

/-- `decrypt(private_key, ciphertext)` (lines 138-150).  The result is the
list of code points of the produced string. -/
def decrypt (private_key : Nat × Nat) (ciphertext : List Nat) : Option (List Nat) :=
  decryptLoop private_key.1 private_key.2 ciphertext

/-! ### Unfolding lemmas for the well-founded loops -/

theorem egcdLoop_stop (a m : Nat) (x y : Int) (h : a ≤ 1) :
    egcdLoop a m x y = some x := by
  rw [egcdLoop, if_pos h]

theorem egcdLoop_step (a m : Nat) (x y : Int) (h1 : 1 < a) (h2 : m ≠ 0) :
    egcdLoop a m x y = egcdLoop m (a % m) y (x - (a / m : Nat) * y) := by
  have h' : ¬ a ≤ 1 := by omega
  rw [egcdLoop, if_neg h', if_neg h2]

theorem gcd_stop (a : Nat) : gcd a 0 = a := by
  rw [gcd, if_pos rfl]

theorem gcd_step (a b : Nat) (h : b ≠ 0) : gcd a b = gcd b (a % b) := by
  rw [gcd, if_neg h]

/-- The source's `gcd` loop computes the mathematical gcd. -/
theorem gcd_eq_natGcd (a b : Nat) : gcd a b = Nat.gcd a b := by
  induction b using Nat.strong_induction_on generalizing a with
  | _ b ih =>
    rcases Nat.eq_zero_or_pos b with hb | hb
    · subst hb
      rw [gcd_stop, Nat.gcd_zero_right]
    · rw [gcd_step a b (by omega), ih (a % b) (Nat.mod_lt a hb) b]
      rw [Nat.gcd_comm a b, Nat.gcd_rec b a, Nat.gcd_comm (a % b) b]

/-! ### Correctness of `mod_inverse` -/

/-- natAbs is additive over `x - q * y` when `x` and `y` have opposite signs. -/
theorem natAbs_sub_mul (x y : Int) (q : Nat) (h : x * y ≤ 0) :
    (x - (q : Int) * y).natAbs = x.natAbs + q * y.natAbs := by
  have hxz : x * ((q : Int) * y) ≤ 0 := by
    have h2 : x * ((q : Int) * y) = (q : Int) * (x * y) := by ring
    rw [h2]
    exact mul_nonpos_iff.mpr (Or.inl ⟨Int.natCast_nonneg q, h⟩)
  have hz : ((q : Int) * y).natAbs = q * y.natAbs := by
    rw [Int.natAbs_mul, Int.natAbs_ofNat]
  rcases mul_nonpos_iff.mp hxz with ⟨h1, h2⟩ | ⟨h1, h2⟩ <;> omega

/-- Invariant induction for the `while a > 1` loop of `mod_inverse`:
starting from a state `(a, m, x, y)` whose coefficient `x` witnesses `a`
and `y` witnesses `m` modulo the original modulus `M` (with `A` the
original first argument), with coprime `a`, `m` and opposite-sign
bounded coefficients, the loop returns a Bezout coefficient `r` of `A`
that satisfies `r * A ≡ 1 (mod M)` and is bounded by `max |x| (M / 2)`. -/
theorem egcdLoop_spec (M A : Nat) :
    ∀ m a : Nat, ∀ x y : Int,
      Nat.gcd a m = 1 → 1 ≤ a →
      x * A ≡ (a : Int) [ZMOD (M : Int)] →
      y * A ≡ (m : Int) [ZMOD (M : Int)] →
      x.natAbs * m + y.natAbs * a = M →
      x * y ≤ 0 →
      ∃ r : Int, egcdLoop a m x y = some r ∧ r * A ≡ 1 [ZMOD (M : Int)] ∧
        r.natAbs ≤ max x.natAbs (M / 2) := by
  intro m
  induction m using Nat.strong_induction_on with
  | _ m ih =>
    intro a x y hg ha hx hy hb hs
    rcases le_or_lt a 1 with h1 | h1
    · have ha1 : a = 1 := le_antisymm h1 ha
      refine ⟨x, egcdLoop_stop a m x y h1, ?_, le_max_left _ _⟩
      have : ((a : Nat) : Int) = 1 := by rw [ha1]; rfl
      rw [← this]
      exact hx
    · have hm : 0 < m := by
        rcases Nat.eq_zero_or_pos m with hm0 | hm0
        · subst hm0
          rw [Nat.gcd_zero_right] at hg
          omega
        · exact hm0
      rw [egcdLoop_step a m x y h1 (by omega)]
      have hg' : Nat.gcd m (a % m) = 1 := by
        rw [Nat.gcd_comm, ← Nat.gcd_rec, Nat.gcd_comm]
        exact hg
      have hy' : (x - (a / m : Nat) * y) * A ≡ ((a % m : Nat) : Int) [ZMOD (M : Int)] := by
        have e1 : (x - (a / m : Nat) * y) * A = x * A - (a / m : Nat) * (y * A) := by ring
        have e2 : ((a % m : Nat) : Int) = (a : Int) - ((a / m : Nat) : Int) * (m : Int) := by
          have h5 : ((a % m : Nat) : Int) + ((a / m : Nat) : Int) * (m : Int) = (a : Int) := by
            exact_mod_cast Nat.mod_add_div' a m
          linarith
        rw [e1, e2]
        exact Int.ModEq.sub hx (Int.ModEq.mul_left _ hy)
      have hb' : y.natAbs * (a % m) + (x - (a / m : Nat) * y).natAbs * m = M := by
        rw [natAbs_sub_mul x y (a / m) hs]
        calc y.natAbs * (a % m) + (x.natAbs + a / m * y.natAbs) * m
            = x.natAbs * m + y.natAbs * (a % m + m * (a / m)) := by ring
          _ = x.natAbs * m + y.natAbs * a := by rw [Nat.mod_add_div]
          _ = M := hb
      have hs' : y * (x - (a / m : Nat) * y) ≤ 0 := by
        have e3 : y * (x - (a / m : Nat) * y) = x * y - (a / m : Nat) * y ^ 2 := by ring
        have h4 : (0 : Int) ≤ (a / m : Nat) * y ^ 2 :=
          mul_nonneg (Int.natCast_nonneg _) (sq_nonneg y)
        rw [e3]
        linarith
      obtain ⟨r, hr, hcong, hbound⟩ :=
        ih (a % m) (Nat.mod_lt a hm) m y (x - (a / m : Nat) * y) hg' hm hy hy' hb' hs'
      refine ⟨r, hr, hcong, ?_⟩
      have hyb : y.natAbs ≤ M / 2 := by
        have : y.natAbs * 2 ≤ y.natAbs * a := Nat.mul_le_mul_left _ (by omega)
        have : y.natAbs * 2 ≤ M := by omega
        omega
      have : max y.natAbs (M / 2) = M / 2 := max_eq_right hyb
      rw [this] at hbound
      exact le_trans hbound (le_max_right _ _)

/-- Correctness of `mod_inverse(a, m)` for `m > 1` and `gcd(a, m) = 1`:
it returns a value in `[0, m)` with `(a * x) % m = 1`. -/
theorem mod_inverse_spec (a m : Nat) (hm : 1 < m) (hg : Nat.gcd a m = 1) :
    ∃ x : Int, mod_inverse a m = some x ∧ 0 ≤ x ∧ x < (m : Int) ∧
      ((a : Int) * x) % (m : Int) = 1 := by
  have ha : 1 ≤ a := by
    rcases Nat.eq_zero_or_pos a with h0 | h0
    · subst h0
      rw [Nat.gcd_zero_left] at hg
      omega
    · exact h0
  have hx0 : (1 : Int) * (a : Int) ≡ (a : Int) [ZMOD (m : Int)] := by
    rw [one_mul]
  have hy0 : (0 : Int) * (a : Int) ≡ (m : Int) [ZMOD (m : Int)] := by
    show ((0 : Int) * (a : Int)) % (m : Int) = (m : Int) % (m : Int)
    simp
  have hb0 : (1 : Int).natAbs * m + (0 : Int).natAbs * a = m := by simp
  have hs0 : (1 : Int) * 0 ≤ 0 := by simp
  obtain ⟨r, hr, hcong, hbound⟩ := egcdLoop_spec m a m a 1 0 hg ha hx0 hy0 hb0 hs0
  have hrm : r.natAbs < m := by
    have h2 : (1 : Nat) ≤ m / 2 := by omega
    have h3 : max (1 : Int).natAbs (m / 2) = m / 2 := by
      simp only [Int.natAbs_one]
      omega
    rw [h3] at hbound
    have : m / 2 < m := Nat.div_lt_self (by omega) (by omega)
    omega
  have hmod : (r * (a : Int)) % (m : Int) = 1 := by
    have h1 : (r * (a : Int)) % (m : Int) = (1 : Int) % (m : Int) := hcong
    rw [h1]
    exact Int.emod_eq_of_lt (by omega) (by exact_mod_cast hm)
  rw [mod_inverse, if_neg (by omega), hr]
  rcases lt_or_le r 0 with hneg | hpos
  · refine ⟨r + m, by simp [hneg], by omega, by omega, ?_⟩
    have e1 : (a : Int) * (r + m) = r * a + m * a := by ring
    rw [e1, Int.add_mul_emod_self_left]
    exact hmod
  · refine ⟨r, by simp [Int.not_lt.mpr hpos], hpos, by omega, ?_⟩
    rw [mul_comm]
    exact hmod

/-! ### Analysis of the Miller-Rabin test -/

theorem split2_stop (d : Nat) (h : ¬ (d % 2 = 0 ∧ 0 < d)) : split2 d = (0, d) := by
  rw [split2, dif_neg h]

theorem split2_step (d : Nat) (h1 : d % 2 = 0) (h2 : 0 < d) :
    split2 d = ((split2 (d / 2)).1 + 1, (split2 (d / 2)).2) := by
  rw [split2, dif_pos ⟨h1, h2⟩]

/-- The factoring loop is correct: its input is `2 ^ s * d` for the `(s, d)`
it returns. -/
theorem split2_pow : ∀ d : Nat, d = 2 ^ (split2 d).1 * (split2 d).2 := by
  intro d
  induction d using Nat.strong_induction_on with
  | _ d ih =>
    by_cases hpar : d % 2 = 0 ∧ 0 < d
    · rw [split2_step d hpar.1 hpar.2]
      have hrec := ih (d / 2) (Nat.div_lt_self hpar.2 one_lt_two)
      have hd : d = 2 * (d / 2) := by omega
      calc d = 2 * (d / 2) := hd
        _ = 2 * (2 ^ (split2 (d / 2)).1 * (split2 (d / 2)).2) := by rw [← hrec]
        _ = 2 ^ ((split2 (d / 2)).1 + 1) * (split2 (d / 2)).2 := by ring
    · rw [split2_stop d hpar]
      simp

/-- The odd part returned by the factoring loop is odd (for positive input). -/
theorem split2_odd : ∀ d : Nat, 0 < d → (split2 d).2 % 2 = 1 := by
  intro d
  induction d using Nat.strong_induction_on with
  | _ d ih =>
    intro h
    by_cases hpar : d % 2 = 0
    · rw [split2_step d hpar h]
      exact ih (d / 2) (Nat.div_lt_self h one_lt_two) (by omega)
    · rw [split2_stop d (by omega)]
      omega

/-- If some square in the inner witness loop's range reaches `n - 1`, the
loop reports success. -/
theorem mrInner_true (n : Nat) :
    ∀ t x : Nat, (∃ i, i < t ∧ x ^ 2 ^ (i + 1) % n = n - 1) → mrInner n t x = true := by
  intro t
  induction t with
  | zero =>
    rintro x ⟨i, hi, -⟩
    exact absurd hi (Nat.not_lt_zero i)
  | succ t ih =>
    rintro x ⟨i, hi, hx⟩
    by_cases hcase : powMod x 2 n = n - 1
    · simp [mrInner, hcase]
    · have hstep : mrInner n (t + 1) x = mrInner n t (powMod x 2 n) := by
        simp [mrInner, hcase]
      rw [hstep]
      apply ih
      cases i with
      | zero =>
        exfalso
        apply hcase
        rw [powMod, ← pow_one 2, hx]
      | succ i =>
        refine ⟨i, by omega, ?_⟩
        have e1 : powMod x 2 n ^ 2 ^ (i + 1) % n = (x ^ 2) ^ 2 ^ (i + 1) % n := by
          rw [powMod, ← Nat.pow_mod]
        have e2 : (x ^ 2) ^ 2 ^ (i + 1) = x ^ 2 ^ (i + 1 + 1) := by
          rw [← pow_mul]
          congr 1
          ring
        rw [e1, e2]
        exact hx

/-- Completeness of one Miller-Rabin round: a true odd prime `n ≥ 5`
passes the round for every witness `a` in the `randint(2, n-2)` range. -/
theorem round_passes (n : Nat) (hn : n.Prime) (h5 : 5 ≤ n)
    (a : Nat) (ha2 : 2 ≤ a) (han : a ≤ n - 2) :
    millerRabinRound n (split2 (n - 1)).1 (split2 (n - 1)).2 a = true := by
  haveI : Fact n.Prime := ⟨hn⟩
  have hnd : n - 1 = 2 ^ (split2 (n - 1)).1 * (split2 (n - 1)).2 := split2_pow (n - 1)
  set s := (split2 (n - 1)).1 with hs
  set d := (split2 (n - 1)).2 with hd
  have hb0 : ((a : ZMod n)) ≠ 0 := by
    rw [Ne, ZMod.natCast_zmod_eq_zero_iff_dvd]
    intro hdvd
    have := Nat.le_of_dvd (by omega) hdvd
    omega
  have hfermat : (a : ZMod n) ^ (n - 1) = 1 := ZMod.pow_card_sub_one_eq_one hb0
  have hval : ∀ k : Nat, a ^ k % n = ((a : ZMod n) ^ k).val := by
    intro k
    rw [← Nat.cast_pow, ZMod.val_natCast]
  have hone : (1 : ZMod n).val = 1 := by
    rw [← Nat.cast_one, ZMod.val_natCast_of_lt (by omega)]
  have hmone : ((-1 : ZMod n)).val = n - 1 := by
    have h1 : ((n - 1 : Nat) : ZMod n) = -1 := by
      have h2 : ((n - 1 : Nat) : ZMod n) = ((n : Nat) : ZMod n) - 1 := by
        rw [Nat.cast_sub (by omega : 1 ≤ n), Nat.cast_one]
      rw [h2, ZMod.natCast_self]
      ring
    rw [← h1, ZMod.val_natCast_of_lt (by omega)]
  have hPs : (a : ZMod n) ^ (2 ^ s * d) = 1 := by rw [← hnd]; exact hfermat
  rw [millerRabinRound]
  by_cases hx : powMod a d n = 1 ∨ powMod a d n = n - 1
  · rw [if_pos hx]
  · rw [if_neg hx]
    push_neg at hx
    obtain ⟨hx1, hx2⟩ := hx
    have hex : ∃ j, (a : ZMod n) ^ (2 ^ j * d) = 1 := ⟨s, hPs⟩
    have hPj : (a : ZMod n) ^ (2 ^ Nat.find hex * d) = 1 := Nat.find_spec hex
    have hjle : Nat.find hex ≤ s := Nat.find_min' hex hPs
    set j := Nat.find hex with hj
    have hj0 : j ≠ 0 := by
      intro h0
      apply hx1
      rw [powMod, hval d]
      have hPd : (a : ZMod n) ^ d = 1 := by
        have h3 := hPj
        rw [h0] at h3
        simpa using h3
      rw [hPd, hone]
    have hc2 : ((a : ZMod n) ^ (2 ^ (j - 1) * d)) * ((a : ZMod n) ^ (2 ^ (j - 1) * d)) = 1 := by
      rw [← pow_add]
      have e4 : 2 ^ (j - 1) * d + 2 ^ (j - 1) * d = 2 ^ (j - 1 + 1) * d := by ring
      have e5 : j - 1 + 1 = j := by omega
      rw [e4, e5, hPj]
    have hcne : (a : ZMod n) ^ (2 ^ (j - 1) * d) ≠ 1 := Nat.find_min hex (by omega)
    have hcm1 : (a : ZMod n) ^ (2 ^ (j - 1) * d) = -1 := by
      rcases mul_self_eq_one_iff.mp hc2 with h | h
      · exact absurd h hcne
      · exact h
    have hnat : a ^ (2 ^ (j - 1) * d) % n = n - 1 := by
      rw [hval, hcm1, hmone]
    have hj1 : j ≠ 1 := by
      intro h1
      apply hx2
      rw [powMod, ← hnat, h1]
      norm_num
    apply mrInner_true
    refine ⟨j - 2, by omega, ?_⟩
    have e1 : powMod a d n ^ 2 ^ (j - 2 + 1) % n = (a ^ d) ^ 2 ^ (j - 2 + 1) % n := by
      rw [powMod, ← Nat.pow_mod]
    have e2 : (a ^ d) ^ 2 ^ (j - 2 + 1) = a ^ (2 ^ (j - 1) * d) := by
      rw [← pow_mul]
      congr 1
      have e3 : j - 2 + 1 = j - 1 := by omega
      rw [← e3]
      ring
    rw [e1, e2]
    exact hnat

/-- An odd prime at least 5 passes the whole Miller-Rabin test, for every
number of rounds and every sequence of witness draws within the
`randint(2, n - 2)` contract. -/
theorem is_prime_true_of_prime (n k : Nat) (draw : Nat → Nat) (hn : n.Prime) (h5 : 5 ≤ n)
    (hdraw : ∀ i, i < k → 2 ≤ draw i ∧ draw i ≤ n - 2) :
    is_prime n k draw = true := by
  have hodd : n % 2 = 1 := by
    by_contra hpar
    have h2 : 2 ∣ n := by omega
    rcases Nat.Prime.eq_one_or_self_of_dvd hn 2 h2 with h | h <;> omega
  rw [is_prime, if_neg (by omega), if_neg (by omega), if_neg (by omega), mrRounds]
  rw [List.all_eq_true]
  intro i hi
  rw [List.mem_range] at hi
  exact round_passes n hn h5 (draw i) (hdraw i hi).1 (hdraw i hi).2

/-! ### RSA correctness core -/

/-- Fermat's little theorem, packaged for one prime factor: if
`k ≡ 1 (mod (r-1)·t)` then `m ^ k ≡ m (mod r)`. -/
theorem pow_cong_prime (r t k m : Nat) (hr : r.Prime) (hk : k % ((r - 1) * t) = 1) :
    m ^ k ≡ m [MOD r] := by
  have hD : k = (r - 1) * t * (k / ((r - 1) * t)) + 1 := by
    have h0 := Nat.div_add_mod k ((r - 1) * t)
    rw [hk] at h0
    omega
  have hk1 : 1 ≤ k := by omega
  by_cases hdvd : r ∣ m
  · have h1 : m ^ k ≡ 0 [MOD r] :=
      (Nat.modEq_zero_iff_dvd).mpr (dvd_pow hdvd (by omega))
    have h2 : m ≡ 0 [MOD r] := (Nat.modEq_zero_iff_dvd).mpr hdvd
    exact h1.trans h2.symm
  · have hco : Nat.Coprime m r := Nat.coprime_comm.mp (hr.coprime_iff_not_dvd.mpr hdvd)
    have hF : m ^ (r - 1) ≡ 1 [MOD r] := by
      have h3 := Nat.ModEq.pow_totient hco
      rwa [Nat.totient_prime hr] at h3
    set u := k / ((r - 1) * t) with hu
    calc m ^ k
        = (m ^ (r - 1)) ^ (t * u) * m := by
          conv_lhs => rw [hD]
          rw [pow_succ, mul_assoc, pow_mul]
      _ ≡ 1 ^ (t * u) * m [MOD r] :=
          Nat.ModEq.mul_right m (Nat.ModEq.pow _ hF)
      _ = m := by rw [one_pow, one_mul]

/-- RSA decryption identity: for distinct primes `p`, `q` and an exponent
`k ≡ 1 (mod (p-1)(q-1))`, raising to the `k` is the identity mod `p * q`. -/
theorem rsa_core (p q k m : Nat) (hp : p.Prime) (hq : q.Prime) (hpq : p ≠ q)
    (hk : k % ((p - 1) * (q - 1)) = 1) :
    m ^ k ≡ m [MOD p * q] := by
  have hco : Nat.Coprime p q := (Nat.coprime_primes hp hq).mpr hpq
  have h1 : m ^ k ≡ m [MOD p] := pow_cong_prime p (q - 1) k m hp hk
  have h2 : m ^ k ≡ m [MOD q] := pow_cong_prime q (p - 1) k m hq (by rwa [mul_comm] at hk)
  exact (Nat.modEq_and_modEq_iff_modEq_mul hco).mp ⟨h1, h2⟩

/-- The totient of the modulus of two distinct primes is at least 2. -/
theorem phi_two_le (p q : Nat) (hp : p.Prime) (hq : q.Prime) (hpq : p ≠ q) :
    2 ≤ (p - 1) * (q - 1) := by
  have hp2 := hp.two_le
  have hq2 := hq.two_le
  have h3 : 3 ≤ p ∨ 3 ≤ q := by omega
  rcases h3 with h3 | h3
  · calc 2 = 2 * 1 := by norm_num
      _ ≤ (p - 1) * (q - 1) := Nat.mul_le_mul (by omega) (by omega)
  · calc 2 = 1 * 2 := by norm_num
      _ ≤ (p - 1) * (q - 1) := Nat.mul_le_mul (by omega) (by omega)

/-! ### Behaviour of the cipher loops -/

/-- When every symbol fits below the modulus, the encryption loop appends
the per-symbol encryptions to its accumulator. -/
theorem encryptLoop_ok (n e : Nat) :
    ∀ pt acc : List Nat, (∀ c ∈ pt, c < n) →
      encryptLoop n e acc pt = acc ++ pt.map (fun c => powMod c e n) := by
  intro pt
  induction pt with
  | nil =>
    intro acc _
    simp [encryptLoop]
  | cons c cs ih =>
    intro acc h
    have hc : ¬ n ≤ c := by
      have := h c (by simp)
      omega
    rw [encryptLoop, if_neg hc, ih _ (fun x hx => h x (by simp [hx]))]
    simp

/-- When some symbol does not fit below the modulus, the encryption loop
returns `[]`, whatever was accumulated before. -/
theorem encryptLoop_fail (n e : Nat) :
    ∀ pt acc : List Nat, (∃ c ∈ pt, n ≤ c) → encryptLoop n e acc pt = [] := by
  intro pt
  induction pt with
  | nil =>
    rintro acc ⟨c, hc, -⟩
    simp at hc
  | cons c cs ih =>
    rintro acc ⟨c', hc', hn⟩
    by_cases hc : n ≤ c
    · rw [encryptLoop, if_pos hc]
    · rw [encryptLoop, if_neg hc]
      rcases List.mem_cons.mp hc' with rfl | hmem
      · omega
      · exact ih _ ⟨c', hmem, hn⟩

/-- When every decrypted value is a valid code point, the decryption loop
succeeds and returns the per-value decryptions. -/
theorem decryptLoop_ok (n d : Nat) :
    ∀ ct : List Nat, (∀ c ∈ ct, powMod c d n < 1114112) →
      decryptLoop n d ct = some (ct.map fun c => powMod c d n) := by
  intro ct
  induction ct with
  | nil =>
    intro _
    simp [decryptLoop]
  | cons c cs ih =>
    intro h
    have h1 : chr (powMod c d n) = some (powMod c d n) := by
      rw [chr, if_pos (h c (by simp))]
    rw [decryptLoop, h1, ih (fun x hx => h x (by simp [hx]))]
    simp

/-! ### Prime generation and exponent selection -/

/-- The forced top bit puts every candidate at or above `2 ^ (bits - 1)`. -/
theorem primeCandidate_msb (bits r : Nat) : 2 ^ (bits - 1) ≤ primeCandidate bits r := by
  apply Nat.testBit_implies_ge
  rw [primeCandidate, Nat.testBit_or, Nat.testBit_or]
  have h1 : (1 <<< (bits - 1)).testBit (bits - 1) = true := by
    rw [Nat.shiftLeft_eq, one_mul, Nat.testBit_two_pow_self]
  rw [h1]
  simp

/-- Forcing the two bits keeps a `bits`-bit draw below `2 ^ bits`. -/
theorem primeCandidate_lt (bits r : Nat) (hb : 1 ≤ bits) (hr : r < 2 ^ bits) :
    primeCandidate bits r < 2 ^ bits := by
  rw [primeCandidate]
  apply Nat.or_lt_two_pow hr
  apply Nat.or_lt_two_pow
  · rw [Nat.shiftLeft_eq, one_mul]
    exact Nat.pow_lt_pow_right one_lt_two (by omega)
  · exact Nat.one_lt_two_pow_iff.mpr (by omega)

/-- The forced bottom bit makes every candidate odd. -/
theorem primeCandidate_odd (bits r : Nat) : primeCandidate bits r % 2 = 1 := by
  apply Nat.mod_two_eq_one_iff_testBit_zero.mpr
  rw [primeCandidate, Nat.testBit_or, Nat.testBit_or]
  simp

/-- C8: for every requested bit length `bits ≥ 2` and every run of the
`generate_prime` loop (over `getrandbits(bits)` draws, each `< 2 ^ bits`)
that terminates, the returned value has exactly `bits` bits
(`2 ^ (bits-1) ≤ p < 2 ^ bits`), is odd, and passed its `is_prime` call. -/
theorem generate_prime_spec (bits : Nat) (hb : 2 ≤ bits) :
    ∀ attempts : List (Nat × (Nat → Nat)), (∀ ar ∈ attempts, ar.1 < 2 ^ bits) →
      ∀ p, generate_prime bits attempts = some p →
        2 ^ (bits - 1) ≤ p ∧ p < 2 ^ bits ∧ p % 2 = 1 ∧
          ∃ wdraw, is_prime p 5 wdraw = true := by
  intro attempts
  induction attempts with
  | nil =>
    intro _ p hp
    simp [generate_prime] at hp
  | cons ar rest ih =>
    intro hlt p hp
    obtain ⟨r, wdraw⟩ := ar
    rw [generate_prime] at hp
    by_cases hpr : is_prime (primeCandidate bits r) 5 wdraw = true
    · rw [if_pos hpr] at hp
      injection hp with hp
      subst hp
      exact ⟨primeCandidate_msb bits r,
        primeCandidate_lt bits r (by omega) (hlt (r, wdraw) (by simp)),
        primeCandidate_odd bits r, wdraw, hpr⟩
    · rw [if_neg hpr] at hp
      exact ih (fun ar har => hlt ar (by simp [har])) p hp

/-- C7 support: any exponent returned by the selection loop (over
`randint(2, phi - 1)` draws) is coprime to `phi` and lies in `(1, phi)`. -/
theorem choose_e_spec (phi : Nat) :
    ∀ ds : List Nat, (∀ x ∈ ds, 2 ≤ x ∧ x ≤ phi - 1) →
      ∀ e, choose_e phi ds = some e → Nat.gcd e phi = 1 ∧ 1 < e ∧ e < phi := by
  intro ds
  induction ds with
  | nil =>
    intro _ e he
    simp [choose_e] at he
  | cons x xs ih =>
    intro hds e he
    rw [choose_e] at he
    by_cases hx : gcd x phi ≠ 1
    · rw [if_pos hx] at he
      exact ih (fun y hy => hds y (by simp [hy])) e he
    · rw [if_neg hx] at he
      injection he with he
      subst he
      push_neg at hx
      rw [gcd_eq_natGcd] at hx
      have hb := hds x (by simp)
      exact ⟨hx, by omega, by omega⟩

/-! ### Claims -/

/-- C2 (counterexample): the private key `(n, d) = (1114113, 1)` satisfies
`n > 0`, and the ciphertext value `1114112` lies in `[0, n)`, yet
`decrypt` fails on it: the decrypted value `1114112` is not a valid code
point (Python's `chr` raises `ValueError`), so decryption does have a
failure path. -/
theorem decrypt_error_counterexample :
    0 < 1114113 ∧ 1114112 < 1114113 ∧ decrypt (1114113, 1) [1114112] = none := by
  refine ⟨by norm_num, by norm_num, by decide⟩

/-- C2 (amended): for every private key `(n, d)` with `0 < n ≤ 0x110000`
and every ciphertext whose values lie in `[0, n)`, `decrypt` returns a
symbol for every value — it never fails, even when the ciphertext was not
produced by the matching public key. -/
theorem decrypt_no_failure (n d : Nat) (hn : 0 < n) (hsmall : n ≤ 1114112)
    (ct : List Nat) (_hct : ∀ c ∈ ct, c < n) :
    decrypt (n, d) ct = some (ct.map fun c => powMod c d n) := by
  have hbound : ∀ c ∈ ct, powMod c d n < 1114112 := by
    intro c _
    have h1 : powMod c d n < n := by
      rw [powMod]
      exact Nat.mod_lt _ hn
    omega
  exact decryptLoop_ok n d ct hbound

theorem decrypt_no_failure_witness :
    0 < 3233 ∧ 3233 ≤ 1114112 ∧ (∀ c ∈ [2790, 1], c < 3233) ∧
      decrypt (3233, 2753) [2790, 1] = some ([2790, 1].map fun c => powMod c 2753 3233) :=
  ⟨by norm_num, by norm_num, by decide,
    decrypt_no_failure 3233 2753 (by norm_num) (by norm_num) [2790, 1] (by decide)⟩

/-- C3: for every public key `(n, e)` and every message containing at
least one symbol whose code point is `≥ n`, `encrypt` fails for the whole
message: the result is `[]`, containing no encrypted values for the
preceding symbols. -/
theorem encrypt_whole_message_fails (n e : Nat) (msg : List Nat)
    (h : ∃ c ∈ msg, n ≤ c) : encrypt (n, e) msg = [] := by
  rw [encrypt]
  exact encryptLoop_fail n e msg [] h

theorem encrypt_whole_message_fails_witness :
    (∃ c ∈ [65, 200], 143 ≤ c) ∧ encrypt (143, 7) [65, 200] = [] :=
  ⟨⟨200, by simp, by norm_num⟩,
    encrypt_whole_message_fails 143 7 [65, 200] ⟨200, by simp, by norm_num⟩⟩

/-- C4: the concrete scenario. With `p = 61`, `q = 53` (`n = 3233`,
`phi = 3120`) and `e = 17`: `mod_inverse(17, 3120) = 2753`; encrypting the
symbol with code 65 under `(3233, 17)` yields `65^17 mod 3233 = 2790`; and
decrypting 2790 with `(3233, 2753)` returns the symbol with code 65. -/
theorem concrete_scenario :
    mod_inverse 17 3120 = some 2753 ∧
    powMod 65 17 3233 = 2790 ∧
    encrypt (3233, 17) [65] = [2790] ∧
    decrypt (3233, 2753) [2790] = some [65] := by
  have hid : powMod 2790 2753 3233 = 65 := by
    have h61 : Nat.Prime 61 := by norm_num
    have h53 : Nat.Prime 53 := by norm_num
    have hcore := rsa_core 61 53 (17 * 2753) 65 h61 h53 (by norm_num) (by norm_num)
    unfold Nat.ModEq at hcore
    have e1 : (2790 : Nat) = 65 ^ 17 % 3233 := by norm_num
    rw [powMod, e1, ← Nat.pow_mod, ← pow_mul]
    norm_num at hcore ⊢
    try exact hcore
  refine ⟨?_, by decide, by decide, ?_⟩
  · simp [mod_inverse, egcdLoop_step, egcdLoop_stop]
  · show decryptLoop 3233 2753 [2790] = some [65]
    simp [decryptLoop, hid, chr]

/-- C9 (implicit): for every public key, `encrypt` on the empty message
returns `[]` — the very value it returns on a precondition failure — so a
caller that tests the result for emptiness (as the presentation layer
does) cannot distinguish a failed encryption from a successful encryption
of an empty message. -/
theorem encrypt_empty_indistinguishable (n e : Nat) :
    encrypt (n, e) [] = [] ∧
      ∀ msg : List Nat, (∃ c ∈ msg, n ≤ c) → encrypt (n, e) msg = [] := by
  constructor
  · rfl
  · intro msg h
    rw [encrypt]
    exact encryptLoop_fail n e msg [] h

theorem encrypt_empty_indistinguishable_witness :
    encrypt (143, 7) [] = [] ∧ (∃ c ∈ [200], 143 ≤ c) ∧ encrypt (143, 7) [200] = [] :=
  ⟨(encrypt_empty_indistinguishable 143 7).1, ⟨200, by simp, by norm_num⟩,
    (encrypt_empty_indistinguishable 143 7).2 [200] ⟨200, by simp, by norm_num⟩⟩

/-- C10 (implicit): with a round count of 0 the witness loop never runs,
so `is_prime(n, 0)` returns true for every odd `n ≥ 5`, composite or
prime. -/
theorem is_prime_zero_rounds (n : Nat) (draw : Nat → Nat) (h5 : 5 ≤ n)
    (hodd : n % 2 = 1) : is_prime n 0 draw = true := by
  rw [is_prime, if_neg (by omega), if_neg (by omega), if_neg (by omega)]
  rfl

theorem is_prime_zero_rounds_witness :
    5 ≤ 9 ∧ 9 % 2 = 1 ∧ is_prime 9 0 (fun _ => 2) = true :=
  ⟨by norm_num, by norm_num, is_prime_zero_rounds 9 (fun _ => 2) (by norm_num) (by norm_num)⟩

theorem generate_prime_spec_witness :
    2 ≤ 2 ∧ (∀ ar ∈ [((0 : Nat), fun _ : Nat => (0 : Nat))], ar.1 < 2 ^ 2) ∧
      generate_prime 2 [(0, fun _ : Nat => 0)] = some 3 ∧
      2 ^ (2 - 1) ≤ 3 ∧ 3 < 2 ^ 2 ∧ 3 % 2 = 1 ∧ ∃ w, is_prime 3 5 w = true := by
  have hgen : generate_prime 2 [(0, fun _ : Nat => 0)] = some 3 := by decide
  exact ⟨by norm_num, by decide, hgen,
    generate_prime_spec 2 (by norm_num) [(0, fun _ => 0)] (by decide) 3 hgen⟩

/-- C6: for every keypair produced by `generate_keypair` (from distinct
primes `p`, `q` and a selected exponent `e` coprime to the totient),
`(e * d) mod phi = 1`; and in general, for `m > 1` and `gcd(a, m) = 1`,
`mod_inverse(a, m)` returns a value in `[0, m)` with `(a * x) mod m = 1`
(the single `+ m` normalisation of a negative Bezout coefficient
suffices). -/
theorem mod_inverse_correct :
    (∀ a m : Nat, 1 < m → Nat.gcd a m = 1 →
      ∃ x : Int, mod_inverse a m = some x ∧ 0 ≤ x ∧ x < (m : Int) ∧
        ((a : Int) * x) % (m : Int) = 1) ∧
    (∀ p q e : Nat, p.Prime → q.Prime → p ≠ q →
      Nat.gcd e ((p - 1) * (q - 1)) = 1 →
      ∀ pk sk : Nat × Nat, generate_keypair p q e = some (pk, sk) →
        (e * sk.2) % ((p - 1) * (q - 1)) = 1) := by
  constructor
  · exact fun a m hm hg => mod_inverse_spec a m hm hg
  · intro p q e hp hq hpq hg pk sk hkey
    have hphi : 1 < (p - 1) * (q - 1) := by
      have := phi_two_le p q hp hq hpq
      omega
    obtain ⟨x, hx, hx0, hxlt, hxmod⟩ := mod_inverse_spec e _ hphi hg
    rw [generate_keypair, hx] at hkey
    simp only [Option.map_some', Option.some.injEq] at hkey
    have hsk : sk = (p * q, x.toNat) := (congrArg Prod.snd hkey).symm
    subst hsk
    have h9 : (((e * x.toNat) % ((p - 1) * (q - 1)) : Nat) : Int) = 1 := by
      push_cast [Int.toNat_of_nonneg hx0]
      push_cast at hxmod
      exact hxmod
    exact_mod_cast h9

theorem mod_inverse_correct_witness :
    (1 < 3120 ∧ Nat.gcd 17 3120 = 1 ∧
      ∃ x : Int, mod_inverse 17 3120 = some x ∧ 0 ≤ x ∧ x < (3120 : Int) ∧
        ((17 : Int) * x) % (3120 : Int) = 1) ∧
    (Nat.Prime 61 ∧ Nat.Prime 53 ∧
      generate_keypair 61 53 17 = some ((3233, 17), (3233, 2753)) ∧
      (17 * ((3233, 2753) : Nat × Nat).2) % ((61 - 1) * (53 - 1)) = 1) := by
  have hkey : generate_keypair 61 53 17 = some ((3233, 17), (3233, 2753)) := by
    simp [generate_keypair, mod_inverse, egcdLoop_step, egcdLoop_stop]
  refine ⟨⟨by norm_num, by decide,
    mod_inverse_correct.1 17 3120 (by norm_num) (by decide)⟩,
    by norm_num, by norm_num, hkey,
    mod_inverse_correct.2 61 53 17 (by norm_num) (by norm_num) (by norm_num)
      (by decide) (3233, 17) (3233, 2753) hkey⟩

/-- C7: every public exponent selected by `generate_keypair`'s selection
loop (over `randint(2, phi - 1)` draws) satisfies `gcd(e, phi(n)) = 1` and
`1 < e < phi(n)`, where `phi(n)` is the totient of `n = p * q`. -/
theorem choose_e_coprime (p q : Nat) (hp : p.Prime) (hq : q.Prime) (hpq : p ≠ q)
    (ds : List Nat) (hds : ∀ x ∈ ds, 2 ≤ x ∧ x ≤ (p - 1) * (q - 1) - 1)
    (e : Nat) (he : choose_e ((p - 1) * (q - 1)) ds = some e) :
    Nat.gcd e (Nat.totient (p * q)) = 1 ∧ 1 < e ∧ e < Nat.totient (p * q) := by
  have htot : Nat.totient (p * q) = (p - 1) * (q - 1) := by
    rw [Nat.totient_mul ((Nat.coprime_primes hp hq).mpr hpq),
      Nat.totient_prime hp, Nat.totient_prime hq]
  rw [htot]
  exact choose_e_spec _ ds hds e he

theorem choose_e_coprime_witness :
    (∀ x ∈ [4, 17], 2 ≤ x ∧ x ≤ (61 - 1) * (53 - 1) - 1) ∧
      choose_e ((61 - 1) * (53 - 1)) [4, 17] = some 17 ∧
      Nat.gcd 17 (Nat.totient (61 * 53)) = 1 ∧ 1 < 17 ∧ 17 < Nat.totient (61 * 53) := by
  have hce : choose_e ((61 - 1) * (53 - 1)) [4, 17] = some 17 := by
    show choose_e 3120 [4, 17] = some 17
    simp [choose_e, gcd_eq_natGcd]
  have hA : ∀ x ∈ [4, 17], 2 ≤ x ∧ x ≤ (61 - 1) * (53 - 1) - 1 := by decide
  have h61 : Nat.Prime 61 := by norm_num
  have h53 : Nat.Prime 53 := by norm_num
  have hne : (61 : Nat) ≠ 53 := by norm_num
  have htot : Nat.totient (61 * 53) = 3120 := by
    rw [Nat.totient_mul ((Nat.coprime_primes h61 h53).mpr hne),
      Nat.totient_prime h61, Nat.totient_prime h53]
  have hB := choose_e_coprime 61 53 h61 h53 hne [4, 17] hA 17 hce
  rw [htot] at hB
  refine ⟨hA, hce, ?_⟩
  rw [htot]
  exact hB

/-- Support for C5: every valid witness makes a Miller-Rabin round on 9
fail. -/
theorem round_fails_on_nine : ∀ a : Nat, a < 8 → 2 ≤ a →
    millerRabinRound 9 3 1 a = false := by decide

/-- Support for C5: `split2` on `9 - 1 = 8` produces `(3, 1)`. -/
theorem split2_eight : split2 8 = (3, 1) := by
  simp [split2]

/-- C5: with the default 5 rounds and any witness draws within the
`randint(2, n - 2)` contract, `is_prime` returns true for 2, 3, 5, 7, 11,
97, 7919 and false for 4, 9, 100, 7920, 1 and 0. -/
theorem is_prime_small_values (draw : Nat → Nat) :
    is_prime 2 5 draw = true ∧
    is_prime 3 5 draw = true ∧
    ((∀ i, i < 5 → 2 ≤ draw i ∧ draw i ≤ 5 - 2) → is_prime 5 5 draw = true) ∧
    ((∀ i, i < 5 → 2 ≤ draw i ∧ draw i ≤ 7 - 2) → is_prime 7 5 draw = true) ∧
    ((∀ i, i < 5 → 2 ≤ draw i ∧ draw i ≤ 11 - 2) → is_prime 11 5 draw = true) ∧
    ((∀ i, i < 5 → 2 ≤ draw i ∧ draw i ≤ 97 - 2) → is_prime 97 5 draw = true) ∧
    ((∀ i, i < 5 → 2 ≤ draw i ∧ draw i ≤ 7919 - 2) → is_prime 7919 5 draw = true) ∧
    is_prime 4 5 draw = false ∧
    ((∀ i, i < 5 → 2 ≤ draw i ∧ draw i ≤ 9 - 2) → is_prime 9 5 draw = false) ∧
    is_prime 100 5 draw = false ∧
    is_prime 7920 5 draw = false ∧
    is_prime 1 5 draw = false ∧
    is_prime 0 5 draw = false := by
  refine ⟨?_, ?_, ?_, ?_, ?_, ?_, ?_, ?_, ?_, ?_, ?_, ?_, ?_⟩
  · rw [is_prime, if_neg (by norm_num), if_pos (by norm_num)]
  · rw [is_prime, if_neg (by norm_num), if_pos (by norm_num)]
  · exact fun h => is_prime_true_of_prime 5 5 draw (by norm_num) (by norm_num) h
  · exact fun h => is_prime_true_of_prime 7 5 draw (by norm_num) (by norm_num) h
  · exact fun h => is_prime_true_of_prime 11 5 draw (by norm_num) (by norm_num) h
  · exact fun h => is_prime_true_of_prime 97 5 draw (by norm_num) (by norm_num) h
  · exact fun h => is_prime_true_of_prime 7919 5 draw (by norm_num) (by norm_num) h
  · rw [is_prime, if_pos (by norm_num)]
  · intro h
    rw [is_prime, if_neg (by norm_num), if_neg (by norm_num), if_neg (by norm_num)]
    have h9 : (9 : Nat) - 1 = 8 := by norm_num
    rw [h9, split2_eight]
    show mrRounds 9 3 1 5 draw = false
    have h0 : millerRabinRound 9 3 1 (draw 0) = false := by
      have hd := h 0 (by norm_num)
      exact round_fails_on_nine (draw 0) (by omega) hd.1
    cases hall : mrRounds 9 3 1 5 draw with
    | false => rfl
    | true =>
      exfalso
      rw [mrRounds, List.all_eq_true] at hall
      have := hall 0 (by simp)
      rw [h0] at this
      exact absurd this (by simp)
  · rw [is_prime, if_neg (by norm_num), if_neg (by norm_num), if_pos (by norm_num)]
  · rw [is_prime, if_neg (by norm_num), if_neg (by norm_num), if_pos (by norm_num)]
  · rw [is_prime, if_pos (by norm_num)]
  · rw [is_prime, if_pos (by norm_num)]

theorem is_prime_small_values_witness :
    is_prime 2 5 (fun _ => 2) = true ∧
    is_prime 3 5 (fun _ => 2) = true ∧
    is_prime 5 5 (fun _ => 2) = true ∧
    is_prime 7 5 (fun _ => 2) = true ∧
    is_prime 11 5 (fun _ => 2) = true ∧
    is_prime 97 5 (fun _ => 2) = true ∧
    is_prime 7919 5 (fun _ => 2) = true ∧
    is_prime 4 5 (fun _ => 2) = false ∧
    is_prime 9 5 (fun _ => 2) = false ∧
    is_prime 100 5 (fun _ => 2) = false ∧
    is_prime 7920 5 (fun _ => 2) = false ∧
    is_prime 1 5 (fun _ => 2) = false ∧
    is_prime 0 5 (fun _ => 2) = false := by
  obtain ⟨h2, h3, h5, h7, h11, h97, h7919, h4, h9, h100, h7920, h1, h0⟩ :=
    is_prime_small_values (fun _ => 2)
  exact ⟨h2, h3, h5 (fun i _ => by norm_num), h7 (fun i _ => by norm_num),
    h11 (fun i _ => by norm_num), h97 (fun i _ => by norm_num),
    h7919 (fun i _ => by norm_num), h4, h9 (fun i _ => by norm_num), h100, h7920, h1, h0⟩

/-- C1: for every keypair produced by `generate_keypair` whose underlying
`p` and `q` are distinct primes (with the selected exponent coprime to
`phi = (p-1)(q-1)` and `d` its modular inverse), and every message all of
whose symbol codes are `< n` (symbol codes are Python chars, hence
`< 0x110000`), decryption of the encryption returns the original
message. -/
theorem roundtrip_correct (p q e : Nat) (hp : p.Prime) (hq : q.Prime) (hpq : p ≠ q)
    (hg : Nat.gcd e ((p - 1) * (q - 1)) = 1)
    (pk sk : Nat × Nat) (hkey : generate_keypair p q e = some (pk, sk))
    (msg : List Nat) (hmsg : ∀ c ∈ msg, c < p * q) (hchar : ∀ c ∈ msg, c < 1114112) :
    decrypt sk (encrypt pk msg) = some msg := by
  have hphi : 1 < (p - 1) * (q - 1) := by
    have := phi_two_le p q hp hq hpq
    omega
  obtain ⟨x, hx, hx0, hxlt, hxmod⟩ := mod_inverse_spec e _ hphi hg
  rw [generate_keypair, hx] at hkey
  simp only [Option.map_some', Option.some.injEq] at hkey
  have hpk : pk = (p * q, e) := (congrArg Prod.fst hkey).symm
  have hsk : sk = (p * q, x.toNat) := (congrArg Prod.snd hkey).symm
  subst hpk
  subst hsk
  have hed : (e * x.toNat) % ((p - 1) * (q - 1)) = 1 := by
    have h9 : (((e * x.toNat) % ((p - 1) * (q - 1)) : Nat) : Int) = 1 := by
      push_cast [Int.toNat_of_nonneg hx0]
      push_cast at hxmod
      exact hxmod
    exact_mod_cast h9
  have helem : ∀ c ∈ msg, powMod (powMod c e (p * q)) x.toNat (p * q) = c := by
    intro c hc
    rw [powMod, powMod, ← Nat.pow_mod, ← pow_mul]
    have hcore := rsa_core p q (e * x.toNat) c hp hq hpq hed
    unfold Nat.ModEq at hcore
    rw [hcore, Nat.mod_eq_of_lt (hmsg c hc)]
  have henc : encrypt (p * q, e) msg = msg.map fun c => powMod c e (p * q) := by
    have h1 := encryptLoop_ok (p * q) e msg [] hmsg
    rw [encrypt]
    simpa using h1
  rw [henc]
  have hdec : decryptLoop (p * q) x.toNat (msg.map fun c => powMod c e (p * q)) =
      some ((msg.map fun c => powMod c e (p * q)).map fun c => powMod c x.toNat (p * q)) := by
    apply decryptLoop_ok
    intro c hc
    rw [List.mem_map] at hc
    obtain ⟨c', hc', rfl⟩ := hc
    rw [helem c' hc']
    exact hchar c' hc'
  have hmm : (msg.map fun c => powMod c e (p * q)).map (fun c => powMod c x.toNat (p * q)) =
      msg := by
    rw [List.map_map]
    have h2 : msg.map ((fun c => powMod c x.toNat (p * q)) ∘ fun c => powMod c e (p * q)) =
        msg.map id := List.map_congr_left fun c hc => helem c hc
    rw [h2, List.map_id]
  show decryptLoop (p * q) x.toNat (msg.map fun c => powMod c e (p * q)) = some msg
  rw [hdec, hmm]

theorem roundtrip_correct_witness :
    Nat.Prime 61 ∧ Nat.Prime 53 ∧ (61 : Nat) ≠ 53 ∧
      Nat.gcd 17 ((61 - 1) * (53 - 1)) = 1 ∧
      generate_keypair 61 53 17 = some ((3233, 17), (3233, 2753)) ∧
      (∀ c ∈ [72, 105], c < 61 * 53) ∧ (∀ c ∈ [72, 105], c < 1114112) ∧
      decrypt (3233, 2753) (encrypt (3233, 17) [72, 105]) = some [72, 105] := by
  have hkey : generate_keypair 61 53 17 = some ((3233, 17), (3233, 2753)) := by
    simp [generate_keypair, mod_inverse, egcdLoop_step, egcdLoop_stop]
  refine ⟨by norm_num, by norm_num, by norm_num, by decide, hkey, by decide, by decide, ?_⟩
  exact roundtrip_correct 61 53 17 (by norm_num) (by norm_num) (by norm_num) (by decide)
    (3233, 17) (3233, 2753) hkey [72, 105] (by decide) (by decide)

end AppRsa
